import Mathlib

/-!
Shallow embedding of the `tiktoken-offline` BPE core
(`src/tiktoken_offline/bpe.py`) and proofs about it.

Modelling conventions:
* Text is a list of unicode code points (`List Nat`); byte sequences are
  `List Nat` as well.  `CoreBPE.utf8` is the per-character `str.encode`.
* Python `dict`s become association lists; `dict.get` becomes `find?`-based
  lookup.  Dict comprehensions that invert a dict keep the "last entry wins"
  behaviour by searching the reversed list.
* The pretokenizer regex is vocabulary-specific configuration (spec sec. 9
  calls it an opaque compiled matcher); it is a function field returning the
  list of `finditer` matches.  The special-token regex is built by the source
  itself (escape + alternation of the literals), so its semantics is defined
  here from that construction: leftmost match, alternatives tried in table
  order.
* Loops whose termination is part of what is being verified take explicit
  fuel; `none` at the outer level means the fuel ran out (the Python loop
  did not terminate within that many iterations).  A `some none` result
  models a Python exception (KeyError from a missing vocabulary entry).
-/

/-- `l[a:b]` slicing of Python, with clamping. -/
def sliceL {α : Type} (l : List α) (a b : Nat) : List α :=
  (l.drop a).take (b - a)

/-- Rank comparison with `float('inf')` modelled as `none`: `none` compares
greater than every finite rank and `inf < inf` is false. -/
def ltRank : Option Nat → Option Nat → Bool
  | none, _ => false
  | some _, none => true
  | some x, some y => decide (x < y)

/-- The scan of `_byte_pair_merge` lines 29-32: running minimum over the
ranks with the running best `(min_rank, index)` accumulator; a strict
comparison keeps the earliest index among ties. -/
def scanMinAux : List (Option Nat) → Nat → (Option Nat × Nat) → (Option Nat × Nat)
  | [], _, best => best
  | r :: rs, i, best => scanMinAux rs (i + 1) (if ltRank r best.1 then (r, i) else best)

/-- `min_rank` selection over `enumerate(parts[:-1])` starting from
`(float('inf'), 0)`. -/
def minRank (parts : List (Nat × Option Nat)) : Option Nat × Nat :=
  scanMinAux (parts.dropLast.map Prod.snd) 0 (none, 0)

/-- `get_rank(parts, start_idx, skip)` of `_byte_pair_merge`. -/
def get_rank (piece : List Nat) (ranks : List Nat → Option Nat)
    (parts : List (Nat × Option Nat)) (startIdx skip : Nat) : Option Nat :=
  if startIdx + skip + 2 < parts.length then
    ranks (sliceL piece ((parts.getD startIdx (0, none)).1)
      ((parts.getD (startIdx + skip + 2) (0, none)).1))
  else none

/-- `parts[i] = (parts[i][0], rank)`: replace only the rank component. -/
def setRank : List (Nat × Option Nat) → Nat → Option Nat → List (Nat × Option Nat)
  | [], _, _ => []
  | p :: ps, 0, r => (p.1, r) :: ps
  | p :: ps, i + 1, r => p :: setRank ps i r

/-- `list.pop(i)` (used in range; out-of-range indices leave the list
unchanged, which the merge loop never relies on). -/
def eraseAt {α : Type} : List α → Nat → List α
  | [], _ => []
  | _ :: xs, 0 => xs
  | x :: xs, i + 1 => x :: eraseAt xs i

/-- One iteration body of the merge loop (lines 34-39): recompute the rank at
the merge point, recompute the rank of the left neighbour, drop the absorbed
boundary `i+1`. -/
def mergeStep (piece : List Nat) (ranks : List Nat → Option Nat)
    (parts : List (Nat × Option Nat)) (i : Nat) : List (Nat × Option Nat) :=
  let parts1 := setRank parts i (get_rank piece ranks parts i 1)
  let parts2 :=
    if 0 < i then setRank parts1 (i - 1) (get_rank piece ranks parts1 (i - 1) 1)
    else parts1
  eraseAt parts2 (i + 1)

/-- The `while len(parts) > 1` loop of `_byte_pair_merge`.  Each productive
iteration removes one boundary, so fuel equal to the initial length is enough
to reproduce the unbounded Python loop. -/
def mergeLoop (piece : List Nat) (ranks : List Nat → Option Nat) :
    Nat → List (Nat × Option Nat) → List (Nat × Option Nat)
  | 0, parts => parts
  | fuel + 1, parts =>
    if parts.length ≤ 1 then parts
    else
      match minRank parts with
      | (some _, i) => mergeLoop piece ranks fuel (mergeStep piece ranks parts i)
      | (none, _) => parts

/-- Lines 15 and 23-26: boundaries `0..len(piece)` paired with the rank of the
byte pair they start; the init loop writes only rank components and reads only
boundary components, so it is a pointwise map. -/
def initParts (piece : List Nat) (ranks : List Nat → Option Nat) :
    List (Nat × Option Nat) :=
  (List.range (piece.length + 1)).map fun i =>
    (i, if i + 2 < piece.length + 1 then ranks (sliceL piece i (i + 2)) else none)

/-- `_byte_pair_merge` with `func` returning the range endpoints themselves:
the output loop (lines 43-46) applied to consecutive boundary pairs. -/
def byte_pair_merge (piece : List Nat) (ranks : List Nat → Option Nat) :
    List (Nat × Nat) :=
  let parts := mergeLoop piece ranks (piece.length + 1) (initParts piece ranks)
  (parts.zip parts.tail).map fun pq => (pq.1.1, pq.2.1)

/-- The engine state built by `CoreBPE.__init__`.  `encoder` and
`special_tokens_encoder` are the two tables in insertion order; `pretok` is
the compiled pretokenizer as an opaque matcher (the list of `finditer`
matches of a text, in order); `utf8` is per-character `str.encode`. -/
structure CoreBPE where
  encoder : List (List Nat × Nat)
  special_tokens_encoder : List (List Nat × Nat)
  pretok : List Nat → List (List Nat)
  utf8 : Nat → List Nat

/-- `self.encoder.get(piece)`. -/
def CoreBPE.encGet (E : CoreBPE) (bs : List Nat) : Option Nat :=
  (E.encoder.find? fun p => p.1 = bs).map Prod.snd

/-- `self.decoder.get(token)` where `decoder = {v: k for k, v in
encoder.items()}` (later entries overwrite earlier ones). -/
def CoreBPE.decGet (E : CoreBPE) (t : Nat) : Option (List Nat) :=
  (E.encoder.reverse.find? fun p => p.2 = t).map Prod.fst

/-- `self.special_tokens_encoder.get(piece)`. -/
def CoreBPE.specialEncGet (E : CoreBPE) (s : List Nat) : Option Nat :=
  (E.special_tokens_encoder.find? fun p => p.1 = s).map Prod.snd

/-- UTF-8 bytes of a string (`text.encode()`), character by character. -/
def CoreBPE.bytesOf (E : CoreBPE) (s : List Nat) : List Nat :=
  (s.map E.utf8).flatten

/-- `self.special_tokens_decoder.get(token)` where `special_tokens_decoder =
{v: k.encode() for k, v in special_tokens_encoder.items()}`. -/
def CoreBPE.specialDecGet (E : CoreBPE) (t : Nat) : Option (List Nat) :=
  (E.special_tokens_encoder.reverse.find? fun p => p.2 = t).map fun p => E.bytesOf p.1

/-- The output loop of `byte_pair_encode`'s `func`: look every merged range's
slice up in the encoder; a missing slice is Python's KeyError (`none`). -/
def CoreBPE.tokensOfRanges (E : CoreBPE) (piece : List Nat) :
    List (Nat × Nat) → Option (List Nat)
  | [] => some []
  | r :: rs =>
    match E.encGet (sliceL piece r.1 r.2) with
    | some t => (E.tokensOfRanges piece rs).map fun ts => t :: ts
    | none => none

/-- `CoreBPE.byte_pair_encode` (lines 98-109): 1-byte pieces short-circuit to
their single rank; otherwise run the merge and look each range up. -/
def CoreBPE.byte_pair_encode (E : CoreBPE) (piece : List Nat) : Option (List Nat) :=
  if piece.length = 1 then (E.encGet piece).map fun t => [t]
  else E.tokensOfRanges piece (byte_pair_merge piece E.encGet)

/-- The loop body of `_encode_ordinary_native` over the pretokenizer matches:
whole-piece encoder hit or byte-pair encode, appended left to right. -/
def CoreBPE.encodeOrdinaryPieces (E : CoreBPE) : List (List Nat) → Option (List Nat)
  | [] => some []
  | p :: ps =>
    match E.encGet (E.bytesOf p) with
    | some t => (E.encodeOrdinaryPieces ps).map fun ts => t :: ts
    | none =>
      match E.byte_pair_encode (E.bytesOf p) with
      | some tks => (E.encodeOrdinaryPieces ps).map fun ts => tks ++ ts
      | none => none

/-- `CoreBPE._encode_ordinary_native` / `encode_ordinary`. -/
def CoreBPE.encode_ordinary (E : CoreBPE) (text : List Nat) : Option (List Nat) :=
  E.encodeOrdinaryPieces (E.pretok text)

/-- One position of the special-token regex: the alternation of the escaped
literals tries the alternatives in table order and takes the first that
matches here (Python `re` is leftmost-first, not longest). -/
def firstLitAt (specials : List (List Nat)) (text : List Nat) (p : Nat) : Option Nat :=
  (specials.find? fun lit => sliceL text p (p + lit.length) = lit).map List.length

/-- Scan positions left to right (bounded by the remaining count) for the
first position where some literal matches. -/
def searchFrom (specials : List (List Nat)) (text : List Nat) :
    Nat → Nat → Option (Nat × Nat)
  | 0, _ => none
  | k + 1, p =>
    match firstLitAt specials text p with
    | some L => some (p, p + L)
    | none => searchFrom specials text k (p + 1)

/-- `special_regex.search(text, pos)`.  With an empty table the joined
pattern is the empty pattern, which matches the empty string at `pos`. -/
def special_regex_search (specials : List (List Nat)) (text : List Nat)
    (pos : Nat) : Option (Nat × Nat) :=
  if specials = [] then (if pos ≤ text.length then some (pos, pos) else none)
  else searchFrom specials text (text.length + 1 - pos) pos

/-- The inner skip loop of `_encode_native` (lines 197-205): search for the
next special occurrence, skip it (continuing past its end) when its literal
is not allowed.  `none` = fuel exhausted (the Python loop did not finish),
`some none` = no admissible occurrence, `some (some (s, e))` = found. -/
def CoreBPE.innerFind (E : CoreBPE) (allowed : List (List Nat)) (text : List Nat) :
    Nat → Nat → Option (Option (Nat × Nat))
  | 0, _ => none
  | fuel + 1, startFind =>
    match special_regex_search (E.special_tokens_encoder.map Prod.fst) text startFind with
    | none => some none
    | some (s, e) =>
      if sliceL text s e ∈ allowed then some (some (s, e))
      else E.innerFind allowed text fuel e

/-- The segment loop of `_encode_native` (lines 209-218): process the
pretokenizer matches of one segment, threading the accumulated tokens and
`last_piece_token_len`.  `none` = KeyError from a missing vocabulary entry. -/
def CoreBPE.processPieces (E : CoreBPE) :
    List (List Nat) → List Nat → Nat → Option (List Nat × Nat)
  | [], ret, lastLen => some (ret, lastLen)
  | p :: ps, ret, _lastLen =>
    match E.encGet (E.bytesOf p) with
    | some t => E.processPieces ps (ret ++ [t]) 1
    | none =>
      match E.byte_pair_encode (E.bytesOf p) with
      | some tks => E.processPieces ps (ret ++ tks) tks.length
      | none => none

/-- The outer loop of `_encode_native` (lines 193-228): find the next
admissible special occurrence (its start, or end of text, bounds the
segment), run the segment loop, then append the reserved id, reset
`last_piece_token_len` to 0 and continue past it. -/
def CoreBPE.encodeNativeGo (E : CoreBPE) (allowed : List (List Nat)) (text : List Nat) :
    Nat → Nat → List Nat → Nat → Option (Option (List Nat × Nat))
  | 0, _, _, _ => none
  | fuel + 1, start, ret, lastLen =>
    match E.innerFind allowed text (text.length + 1) start with
    | none => none
    | some (some (s, e)) =>
      match E.processPieces (E.pretok (sliceL text start s)) ret lastLen with
      | none => some none
      | some (ret1, _last1) =>
        match E.specialEncGet (sliceL text s e) with
        | some t => E.encodeNativeGo allowed text fuel e (ret1 ++ [t]) 0
        | none => E.encodeNativeGo allowed text fuel e ret1 0
    | some none =>
      match E.processPieces (E.pretok (sliceL text start text.length)) ret lastLen with
      | none => some none
      | some (ret1, last1) => some (some (ret1, last1))

/-- `CoreBPE._encode_native(text, allowed_special)`. -/
def CoreBPE.encode_native (E : CoreBPE) (fuel : Nat) (text : List Nat)
    (allowed : List (List Nat)) : Option (Option (List Nat × Nat)) :=
  E.encodeNativeGo allowed text fuel 0 [] 0

/-- `CoreBPE.encode`: the token component of `_encode_native`. -/
def CoreBPE.encode (E : CoreBPE) (fuel : Nat) (text : List Nat)
    (allowed : List (List Nat)) : Option (Option (List Nat)) :=
  (E.encode_native fuel text allowed).map (Option.map Prod.fst)

/-- `CoreBPE._decode_native` / `decode_bytes`: rank table first, special
table as the fallback, unknown ids silently skipped. -/
def CoreBPE.decode_native (E : CoreBPE) : List Nat → List Nat
  | [] => []
  | t :: ts =>
    (match E.decGet t with
     | some bs => bs
     | none =>
       match E.specialDecGet t with
       | some bs => bs
       | none => []) ++ E.decode_native ts

/-- `CoreBPE.decode_bytes`. -/
def CoreBPE.decode_bytes (E : CoreBPE) (tokens : List Nat) : List Nat :=
  E.decode_native tokens

/-- `CoreBPE.decode_single_token_bytes`: `decoder.get(token) or
special_tokens_decoder.get(token)`.  Python `or` treats the empty byte
sequence as falsy, so an empty rank-table entry falls through to the special
table.  `none` models the KeyError. -/
def CoreBPE.decode_single_token_bytes (E : CoreBPE) (t : Nat) : Option (List Nat) :=
  match E.decGet t with
  | some bs => if bs = [] then E.specialDecGet t else some bs
  | none => E.specialDecGet t

/-- `token_is_all_space` inside `_increase_last_piece_token_len`.  The source
tests `b in [b' ', b'\n', b'\t']` where `b` iterates over a `bytes` object
and is therefore an `int`; an `int` never equals a `bytes` in Python 3, so
the membership test is always false and the predicate holds only for tokens
decoding to empty bytes. -/
def CoreBPE.token_is_all_space (E : CoreBPE) (t : Nat) : Bool :=
  match E.decGet t with
  | some token_bytes => token_bytes.all fun _b => false
  | none => false

/-- The `while` loop of `_increase_last_piece_token_len` (lines 249-250);
each iteration increments `last_piece_token_len`, bounded by `len(tokens)`,
so fuel `tokens.length` reproduces the unbounded loop. -/
def CoreBPE.growLast (E : CoreBPE) (tokens : List Nat) : Nat → Nat → Nat
  | 0, lastLen => lastLen
  | fuel + 1, lastLen =>
    if lastLen < tokens.length &&
        E.token_is_all_space (tokens.getD (tokens.length - lastLen - 1) 0) then
      E.growLast tokens fuel (lastLen + 1)
    else lastLen

/-- `CoreBPE._increase_last_piece_token_len` (lines 232-254). -/
def CoreBPE.increase_last_piece_token_len (E : CoreBPE) (tokens : List Nat)
    (lastLen : Nat) : List Nat × Nat :=
  if 0 < lastLen &&
      E.token_is_all_space (tokens.getD (tokens.length - lastLen) 0) then
    (tokens, E.growLast tokens tokens.length lastLen)
  else (tokens, lastLen)

/-- Modelled from the spec (sec. 4.6): the whitespace predicate the source
intends, "decoded bytes consist entirely of space/tab/newline bytes"
(byte values 32, 10, 9). -/
def CoreBPE.token_is_all_space_spec (E : CoreBPE) (t : Nat) : Bool :=
  match E.decGet t with
  | some token_bytes => token_bytes.all fun b => b == 32 || b == 10 || b == 9
  | none => false

/-- Modelled from the spec: the extension loop with the intended whitespace
predicate. -/
def CoreBPE.growLastSpec (E : CoreBPE) (tokens : List Nat) : Nat → Nat → Nat
  | 0, lastLen => lastLen
  | fuel + 1, lastLen =>
    if lastLen < tokens.length &&
        E.token_is_all_space_spec (tokens.getD (tokens.length - lastLen - 1) 0) then
      E.growLastSpec tokens fuel (lastLen + 1)
    else lastLen

/-- Modelled from the spec (sec. 4.6): `_increase_last_piece_token_len` with
the intended whitespace predicate. -/
def CoreBPE.increase_last_piece_token_len_spec (E : CoreBPE) (tokens : List Nat)
    (lastLen : Nat) : List Nat × Nat :=
  if 0 < lastLen &&
      E.token_is_all_space_spec (tokens.getD (tokens.length - lastLen) 0) then
    (tokens, E.growLastSpec tokens tokens.length lastLen)
  else (tokens, lastLen)

/-- `CoreBPE._encode_unstable_native` (lines 256-273).  The completion
enumeration is an unimplemented stub in the source ("Implement logic for
finding completions"), so the completion list is always empty. -/
def CoreBPE.encode_unstable_native (E : CoreBPE) (fuel : Nat) (text : List Nat)
    (allowed : List (List Nat)) : Option (Option (List Nat × List (List Nat))) :=
  match E.encode_native fuel text allowed with
  | none => none
  | some none => some none
  | some (some (tokens, lastLen)) =>
    if lastLen = 0 then some (some (tokens, []))
    else
      let tl := E.increase_last_piece_token_len tokens lastLen
      let unstable_bytes := E.decode_native (tl.1.drop (tl.1.length - tl.2))
      let tokens2 := tl.1.take (tl.1.length - tl.2)
      if unstable_bytes = [] then some (some (tokens2, []))
      else some (some (tokens2, []))

/-- `CoreBPE.encode_with_unstable` (the set-to-list conversion of an always
empty set is the identity). -/
def CoreBPE.encode_with_unstable (E : CoreBPE) (fuel : Nat) (text : List Nat)
    (allowed : List (List Nat)) : Option (Option (List Nat × List (List Nat))) :=
  E.encode_unstable_native fuel text allowed

/-- The construction-time invariant of `CoreBPE.__init__`: the encoder's keys
are distinct (a Python dict) and its values are distinct (the explicit
`len(encoder) != len(decoder)` duplicate-id check). -/
def CoreBPE.WF (E : CoreBPE) : Prop :=
  (E.encoder.map Prod.fst).Nodup ∧ (E.encoder.map Prod.snd).Nodup

/-- The code points of the literal `"<|endoftext|>"`. -/
def eotLit : List Nat := [60, 124, 101, 110, 100, 111, 102, 116, 101, 120, 116, 124, 62]

/-- A concrete engine: single-byte vocabulary for the characters of
`"a<|endoftext|>b"`, the end-of-text special token, a pretokenizer that
matches every single character, identity (ASCII) UTF-8. -/
def engA : CoreBPE :=
  { encoder := [([97], 1), ([98], 2), ([60], 3), ([124], 4), ([101], 5), ([110], 6),
      ([100], 7), ([111], 8), ([102], 9), ([116], 10), ([120], 11), ([62], 12)]
    special_tokens_encoder := [(eotLit, 50256)]
    pretok := fun t => t.map fun c => [c]
    utf8 := fun c => [c] }

/-- Like `engA` but the pretokenizer matches each non-empty segment whole, so
a trailing segment becomes one multi-token piece. -/
def engB : CoreBPE :=
  { encoder := engA.encoder
    special_tokens_encoder := engA.special_tokens_encoder
    pretok := fun t => if t = [] then [] else [t]
    utf8 := fun c => [c] }

/-- A tiny engine for the whitespace-extension claim: token 5 decodes to a
single space byte, token 6 to the letter x. -/
def engC : CoreBPE :=
  { encoder := [([32], 5), ([120], 6)]
    special_tokens_encoder := []
    pretok := fun _ => []
    utf8 := fun c => [c] }

/-- An engine whose rank table contains the empty byte sequence (id 7), for
the strict single-token decode claim. -/
def engD : CoreBPE :=
  { encoder := [([], 7), ([120], 3)]
    special_tokens_encoder := [([115], 9)]
    pretok := fun _ => []
    utf8 := fun c => [c] }

/-- Invariant of the merge loop: boundary positions are strictly increasing. -/
def StrictFsts (parts : List (Nat × Option Nat)) : Prop :=
  ∀ j k, j < k → k < parts.length →
    (parts.getD j (0, none)).1 < (parts.getD k (0, none)).1

/-- Invariant of the merge loop: a finite rank is stored only at a boundary
with at least two boundaries after it (the stored rank is the rank of merging
the two ranges starting there). -/
def RankBound (parts : List (Nat × Option Nat)) : Prop :=
  ∀ j, parts.length ≤ j + 2 → (parts.getD j (0, none)).2 = none

/-- The full merge-loop invariant for a piece of length `n`. -/
def PartsInv (n : Nat) (parts : List (Nat × Option Nat)) : Prop :=
  2 ≤ parts.length ∧
  (parts.getD 0 (0, none)).1 = 0 ∧
  (parts.getD (parts.length - 1) (0, none)).1 = n ∧
  StrictFsts parts ∧
  RankBound parts

theorem ltRank_irrefl (a : Option Nat) : ltRank a a = false := by
  cases a <;> simp [ltRank]

theorem ltRank_asymm {a b : Option Nat} (h : ltRank a b = true) : ltRank b a = false := by
  cases a <;> cases b <;> simp_all [ltRank]
  omega

theorem ltRank_lt_of_lt_of_not_lt {a b c : Option Nat} (h1 : ltRank a b = true)
    (h2 : ltRank c b = false) : ltRank a c = true := by
  cases a <;> cases b <;> cases c <;> simp_all [ltRank]
  omega

theorem scanMinAux_spec (rs : List (Option Nat)) :
    ∀ (i0 : Nat) (br : Option Nat) (bi : Nat),
    (scanMinAux rs i0 (br, bi) = (br, bi) ∧
      ∀ j, j < rs.length → ltRank (rs.getD j none) br = false) ∨
    (∃ k, k < rs.length ∧ scanMinAux rs i0 (br, bi) = (rs.getD k none, i0 + k) ∧
      ltRank (rs.getD k none) br = true ∧
      (∀ j, j < rs.length → ltRank (rs.getD j none) (rs.getD k none) = false) ∧
      (∀ j, j < k → ltRank (rs.getD k none) (rs.getD j none) = true)) := by
  induction rs with
  | nil => intro i0 br bi; left; exact ⟨rfl, fun j hj => absurd hj (by simp)⟩
  | cons r rs ih =>
    intro i0 br bi
    by_cases hr : ltRank r br = true
    · -- the head strictly improves the running best
      have hstep : scanMinAux (r :: rs) i0 (br, bi) = scanMinAux rs (i0 + 1) (r, i0) := by
        simp [scanMinAux, hr]
      rcases ih (i0 + 1) r i0 with ⟨heq, hall⟩ | ⟨k, hk, heq, hlt, hall, htie⟩
      · right
        refine ⟨0, by simp, ?_, ?_, ?_, ?_⟩
        · rw [hstep, heq]; simp
        · simpa using hr
        · intro j hj
          cases j with
          | zero => simpa using ltRank_irrefl r
          | succ j => simpa using hall j (by simpa using hj)
        · intro j hj; omega
      · right
        refine ⟨k + 1, by simpa using hk, ?_, ?_, ?_, ?_⟩
        · rw [hstep, heq]; simp; omega
        · exact ltRank_lt_of_lt_of_not_lt (by simpa using hlt) (ltRank_asymm hr)
        · intro j hj
          cases j with
          | zero => simpa using ltRank_asymm (by simpa using hlt)
          | succ j => simpa using hall j (by simpa using hj)
        · intro j hj
          cases j with
          | zero => simpa using hlt
          | succ j => simpa using htie j (by omega)
    · -- the head does not improve the running best
      have hstep : scanMinAux (r :: rs) i0 (br, bi) = scanMinAux rs (i0 + 1) (br, bi) := by
        simp [scanMinAux, hr]
      rcases ih (i0 + 1) br bi with ⟨heq, hall⟩ | ⟨k, hk, heq, hlt, hall, htie⟩
      · left
        refine ⟨by rw [hstep, heq], ?_⟩
        intro j hj
        cases j with
        | zero => simpa using hr
        | succ j => simpa using hall j (by simpa using hj)
      · right
        refine ⟨k + 1, by simpa using hk, ?_, ?_, ?_, ?_⟩
        · rw [hstep, heq]; simp; omega
        · simpa using hlt
        · intro j hj
          cases j with
          | zero =>
            have : ltRank (rs.getD k none) r = true :=
              ltRank_lt_of_lt_of_not_lt hlt (by simpa using hr)
            simpa using ltRank_asymm this
          | succ j => simpa using hall j (by simpa using hj)
        · intro j hj
          cases j with
          | zero => simpa using ltRank_lt_of_lt_of_not_lt hlt (by simpa using hr)
          | succ j => simpa using htie j (by omega)

theorem ltRank_none_right (x : Option Nat) : ltRank x none = true ↔ x ≠ none := by
  cases x <;> simp [ltRank]

theorem ltRank_none_of_false {x : Option Nat} (h : ltRank x none = false) : x = none := by
  cases x <;> simp_all [ltRank]

theorem dropLast_map_getD (parts : List (Nat × Option Nat)) (j : Nat)
    (hj : j + 1 < parts.length) :
    (parts.dropLast.map Prod.snd).getD j none = (parts.getD j (0, none)).2 := by
  have h1 : j < parts.dropLast.length := by
    simp only [List.length_dropLast]; omega
  have h2 : j < parts.length := by omega
  rw [List.getD_eq_getElem?_getD, List.getElem?_map,
    List.getElem?_eq_getElem (by simpa using h1), List.getD_eq_getElem?_getD,
    List.getElem?_eq_getElem h2]
  simp [List.getElem_dropLast]

theorem minRank_eq_none (parts : List (Nat × Option Nat)) (h : (minRank parts).1 = none) :
    ∀ j, j + 1 < parts.length → (parts.getD j (0, none)).2 = none := by
  intro j hj
  have hlen : (parts.dropLast.map Prod.snd).length = parts.length - 1 := by
    simp [List.length_dropLast]
  rcases scanMinAux_spec (parts.dropLast.map Prod.snd) 0 none 0 with
    ⟨heq, hall⟩ | ⟨k, hk, heq, hlt, _, _⟩
  · have hj' : j < (parts.dropLast.map Prod.snd).length := by omega
    have := ltRank_none_of_false (hall j hj')
    rwa [dropLast_map_getD parts j hj] at this
  · exfalso
    have : (minRank parts).1 = (parts.dropLast.map Prod.snd).getD k none := by
      rw [minRank, heq]
    rw [h] at this
    exact (ltRank_none_right _).mp hlt this.symm

theorem minRank_none_of_all (parts : List (Nat × Option Nat))
    (h : ∀ j, j + 1 < parts.length → (parts.getD j (0, none)).2 = none) :
    minRank parts = (none, 0) := by
  have hlen : (parts.dropLast.map Prod.snd).length = parts.length - 1 := by
    simp [List.length_dropLast]
  rcases scanMinAux_spec (parts.dropLast.map Prod.snd) 0 none 0 with
    ⟨heq, _⟩ | ⟨k, hk, _, hlt, _, _⟩
  · rw [minRank, heq]
  · exfalso
    have hk' : k + 1 < parts.length := by omega
    have := (ltRank_none_right _).mp hlt
    rw [dropLast_map_getD parts k hk'] at this
    exact this (h k hk')

theorem minRank_eq_some (parts : List (Nat × Option Nat)) (r i : Nat)
    (h : minRank parts = (some r, i)) :
    i + 1 < parts.length ∧ (parts.getD i (0, none)).2 = some r ∧
    (∀ j s, j + 1 < parts.length → (parts.getD j (0, none)).2 = some s → r ≤ s) ∧
    (∀ j s, j < i → (parts.getD j (0, none)).2 = some s → r < s) := by
  have hlen : (parts.dropLast.map Prod.snd).length = parts.length - 1 := by
    simp [List.length_dropLast]
  rcases scanMinAux_spec (parts.dropLast.map Prod.snd) 0 none 0 with
    ⟨heq, _⟩ | ⟨k, hk, heq, _, hall, htie⟩
  · exfalso
    rw [minRank, heq, Prod.mk.injEq] at h
    exact Option.noConfusion h.1
  · rw [minRank, heq, Prod.mk.injEq] at h
    obtain ⟨hfst, hsnd⟩ := h
    have hik : i = k := by omega
    subst hik
    have hi1 : i + 1 < parts.length := by omega
    refine ⟨hi1, by rw [← dropLast_map_getD parts i hi1]; exact hfst, ?_, ?_⟩
    · intro j s hj hs
      have hj' : j < (parts.dropLast.map Prod.snd).length := by omega
      have := hall j hj'
      rw [dropLast_map_getD parts j hj, hs, hfst] at this
      simpa [ltRank] using this
    · intro j s hj hs
      have hj1 : j + 1 < parts.length := by omega
      have := htie j hj
      rw [dropLast_map_getD parts j hj1, hs, hfst] at this
      simpa [ltRank] using this

/-- C5: at every iteration of the merge loop, `_byte_pair_merge` selects the
adjacent boundary pair whose stored rank is globally lowest over
`enumerate(parts[:-1])`, breaking ties by lowest starting index, and steps by
merging there; when no scanned pair has a finite rank the loop stops and
returns `parts` unchanged; and a 1-byte piece short-circuits in
`byte_pair_encode` to the single rank of that byte without the merge loop. -/
theorem spec_c5 (piece : List Nat) (ranks : List Nat → Option Nat)
    (parts : List (Nat × Option Nat)) (fuel : Nat) (h : 1 < parts.length) :
    ((minRank parts).1 = none →
      mergeLoop piece ranks (fuel + 1) parts = parts ∧
      ∀ j, j + 1 < parts.length → (parts.getD j (0, none)).2 = none) ∧
    ((∀ j, j + 1 < parts.length → (parts.getD j (0, none)).2 = none) →
      mergeLoop piece ranks (fuel + 1) parts = parts) ∧
    (∀ r i, minRank parts = (some r, i) →
      i + 1 < parts.length ∧
      (parts.getD i (0, none)).2 = some r ∧
      (∀ j s, j + 1 < parts.length → (parts.getD j (0, none)).2 = some s → r ≤ s) ∧
      (∀ j s, j < i → (parts.getD j (0, none)).2 = some s → r < s) ∧
      mergeLoop piece ranks (fuel + 1) parts =
        mergeLoop piece ranks fuel (mergeStep piece ranks parts i)) ∧
    (∀ (E : CoreBPE) (b : Nat), E.byte_pair_encode [b] = (E.encGet [b]).map fun t => [t]) := by
  refine ⟨?_, ?_, ?_, ?_⟩
  · intro h1
    have hm : minRank parts = (none, (minRank parts).2) := by
      rw [← h1]
    constructor
    · show (if parts.length ≤ 1 then parts
        else match minRank parts with
          | (some _, i) => mergeLoop piece ranks fuel (mergeStep piece ranks parts i)
          | (none, _) => parts) = parts
      rw [if_neg (by omega), hm]
    · exact minRank_eq_none parts h1
  · intro hall
    have hm := minRank_none_of_all parts hall
    show (if parts.length ≤ 1 then parts
      else match minRank parts with
        | (some _, i) => mergeLoop piece ranks fuel (mergeStep piece ranks parts i)
        | (none, _) => parts) = parts
    rw [if_neg (by omega), hm]
  · intro r i hm
    obtain ⟨h1, h2, h3, h4⟩ := minRank_eq_some parts r i hm
    refine ⟨h1, h2, h3, h4, ?_⟩
    show (if parts.length ≤ 1 then parts
      else match minRank parts with
        | (some _, i) => mergeLoop piece ranks fuel (mergeStep piece ranks parts i)
        | (none, _) => parts) = _
    rw [if_neg (by omega), hm]
  · intro E b
    simp [CoreBPE.byte_pair_encode]

/-- Witness for C5 at a concrete state: the boundary at index 0 holds the
globally lowest rank, so one loop step merges there. -/
theorem spec_c5_witness :
    mergeLoop [10, 20] (fun _ => none) 2 [(0, some 5), (1, none), (2, none)] =
      mergeLoop [10, 20] (fun _ => none) 1
        (mergeStep [10, 20] (fun _ => none) [(0, some 5), (1, none), (2, none)] 0) :=
  ((spec_c5 [10, 20] (fun _ => none) [(0, some 5), (1, none), (2, none)] 1
    (by decide)).2.2.1 5 0 (by decide)).2.2.2.2

theorem setRank_length : ∀ (l : List (Nat × Option Nat)) (i : Nat) (r : Option Nat),
    (setRank l i r).length = l.length
  | [], _, _ => rfl
  | _ :: _, 0, _ => rfl
  | p :: ps, i + 1, r => by simp [setRank, setRank_length ps i r]

theorem setRank_getD_fst : ∀ (l : List (Nat × Option Nat)) (i : Nat) (r : Option Nat)
    (j : Nat), ((setRank l i r).getD j (0, none)).1 = (l.getD j (0, none)).1
  | [], i, r, j => by simp [setRank]
  | p :: ps, 0, r, 0 => rfl
  | p :: ps, 0, r, j + 1 => rfl
  | p :: ps, i + 1, r, 0 => rfl
  | p :: ps, i + 1, r, j + 1 => by
    simpa [setRank, List.getD_cons_succ] using setRank_getD_fst ps i r j

theorem setRank_getD_ne : ∀ (l : List (Nat × Option Nat)) (i : Nat) (r : Option Nat)
    (j : Nat), j ≠ i → (setRank l i r).getD j (0, none) = l.getD j (0, none)
  | [], _, _, _, _ => by simp [setRank]
  | p :: ps, 0, r, 0, h => absurd rfl h
  | p :: ps, 0, r, j + 1, _ => by simp [setRank, List.getD_cons_succ]
  | p :: ps, i + 1, r, 0, _ => rfl
  | p :: ps, i + 1, r, j + 1, h => by
    simpa [setRank, List.getD_cons_succ] using setRank_getD_ne ps i r j (by omega)

theorem setRank_getD_self : ∀ (l : List (Nat × Option Nat)) (i : Nat) (r : Option Nat),
    i < l.length → (setRank l i r).getD i (0, none) = ((l.getD i (0, none)).1, r)
  | [], i, r, h => by simp at h
  | p :: ps, 0, r, _ => rfl
  | p :: ps, i + 1, r, h => by
    simpa [setRank, List.getD_cons_succ] using setRank_getD_self ps i r (by simp at h; omega)

theorem eraseAt_length {α : Type} : ∀ (l : List α) (m : Nat), m < l.length →
    (eraseAt l m).length = l.length - 1
  | [], m, h => by simp at h
  | x :: xs, 0, _ => by simp [eraseAt]
  | x :: xs, m + 1, h => by
    have hm : m < xs.length := by simp at h; omega
    have := eraseAt_length xs m hm
    simp [eraseAt, this]
    omega

theorem eraseAt_getD_lt {α : Type} (d : α) : ∀ (l : List α) (m j : Nat), j < m →
    (eraseAt l m).getD j d = l.getD j d
  | [], m, j, _ => by simp [eraseAt]
  | x :: xs, 0, j, h => by omega
  | x :: xs, m + 1, 0, _ => rfl
  | x :: xs, m + 1, j + 1, h => by
    simpa [eraseAt, List.getD_cons_succ] using eraseAt_getD_lt d xs m j (by omega)

theorem eraseAt_getD_ge {α : Type} (d : α) : ∀ (l : List α) (m j : Nat), m ≤ j →
    (eraseAt l m).getD j d = l.getD (j + 1) d
  | [], m, j, _ => by simp [eraseAt]
  | x :: xs, 0, j, _ => by simp [eraseAt, List.getD_cons_succ]
  | x :: xs, m + 1, 0, h => by omega
  | x :: xs, m + 1, j + 1, h => by
    simpa [eraseAt, List.getD_cons_succ] using eraseAt_getD_ge d xs m j (by omega)

theorem get_rank_none (piece : List Nat) (ranks : List Nat → Option Nat)
    (parts : List (Nat × Option Nat)) (startIdx skip : Nat)
    (h : parts.length ≤ startIdx + skip + 2) :
    get_rank piece ranks parts startIdx skip = none := by
  rw [get_rank, if_neg (by omega)]

theorem mergeStep_inv {n : Nat} (piece : List Nat) (ranks : List Nat → Option Nat)
    (parts : List (Nat × Option Nat)) (r i : Nat)
    (hInv : PartsInv n parts) (hm : minRank parts = (some r, i)) :
    PartsInv n (mergeStep piece ranks parts i) ∧
    (mergeStep piece ranks parts i).length = parts.length - 1 := by
  obtain ⟨hlen, h0, hlast, hstr, hrb⟩ := hInv
  obtain ⟨hi1, hir, -, -⟩ := minRank_eq_some parts r i hm
  have hi2 : i + 2 < parts.length := by
    by_contra hc
    push_neg at hc
    rw [hrb i (by omega)] at hir
    exact Option.noConfusion hir
  have hmerge : mergeStep piece ranks parts i =
      eraseAt (if 0 < i then
          setRank (setRank parts i (get_rank piece ranks parts i 1)) (i - 1)
            (get_rank piece ranks (setRank parts i (get_rank piece ranks parts i 1)) (i - 1) 1)
        else setRank parts i (get_rank piece ranks parts i 1)) (i + 1) := rfl
  rw [hmerge]
  have hP1len : (setRank parts i (get_rank piece ranks parts i 1)).length = parts.length :=
    setRank_length parts i _
  have hP2len : (if 0 < i then
      setRank (setRank parts i (get_rank piece ranks parts i 1)) (i - 1)
        (get_rank piece ranks (setRank parts i (get_rank piece ranks parts i 1)) (i - 1) 1)
      else setRank parts i (get_rank piece ranks parts i 1)).length = parts.length := by
    by_cases h : 0 < i <;> simp [h, setRank_length, hP1len]
  have hL : (eraseAt (if 0 < i then
      setRank (setRank parts i (get_rank piece ranks parts i 1)) (i - 1)
        (get_rank piece ranks (setRank parts i (get_rank piece ranks parts i 1)) (i - 1) 1)
      else setRank parts i (get_rank piece ranks parts i 1)) (i + 1)).length =
      parts.length - 1 := by
    rw [eraseAt_length _ (i + 1) (by omega), hP2len]
  have hfst : ∀ j, ((if 0 < i then
      setRank (setRank parts i (get_rank piece ranks parts i 1)) (i - 1)
        (get_rank piece ranks (setRank parts i (get_rank piece ranks parts i 1)) (i - 1) 1)
      else setRank parts i (get_rank piece ranks parts i 1)).getD j (0, none)).1 =
      (parts.getD j (0, none)).1 := by
    intro j
    by_cases h : 0 < i
    · simp only [if_pos h]
      rw [setRank_getD_fst, setRank_getD_fst]
    · simp only [if_neg h]
      rw [setRank_getD_fst]
  have hsnd_ne : ∀ j, j ≠ i → j ≠ i - 1 → (if 0 < i then
      setRank (setRank parts i (get_rank piece ranks parts i 1)) (i - 1)
        (get_rank piece ranks (setRank parts i (get_rank piece ranks parts i 1)) (i - 1) 1)
      else setRank parts i (get_rank piece ranks parts i 1)).getD j (0, none) =
      parts.getD j (0, none) := by
    intro j hji hji'
    by_cases h : 0 < i
    · simp only [if_pos h]
      rw [setRank_getD_ne _ _ _ _ hji', setRank_getD_ne _ _ _ _ hji]
    · simp only [if_neg h]
      rw [setRank_getD_ne _ _ _ _ hji]
  have hsnd_i : ((if 0 < i then
      setRank (setRank parts i (get_rank piece ranks parts i 1)) (i - 1)
        (get_rank piece ranks (setRank parts i (get_rank piece ranks parts i 1)) (i - 1) 1)
      else setRank parts i (get_rank piece ranks parts i 1)).getD i (0, none)).2 =
      get_rank piece ranks parts i 1 := by
    by_cases h : 0 < i
    · simp only [if_pos h]
      rw [setRank_getD_ne _ _ _ _ (by omega), setRank_getD_self parts i _ (by omega)]
    · simp only [if_neg h]
      rw [setRank_getD_self parts i _ (by omega)]
  refine ⟨⟨?_, ?_, ?_, ?_, ?_⟩, hL⟩
  · omega
  · rw [eraseAt_getD_lt _ _ _ _ (by omega), hfst, h0]
  · rw [hL, eraseAt_getD_ge _ _ _ _ (by omega), hfst]
    have harith : parts.length - 1 - 1 + 1 = parts.length - 1 := by omega
    rw [harith, hlast]
  · intro j k hjk hk
    rw [hL] at hk
    by_cases hj' : j < i + 1
    · by_cases hk' : k < i + 1
      · rw [eraseAt_getD_lt _ _ _ _ hj', eraseAt_getD_lt _ _ _ _ hk', hfst, hfst]
        exact hstr j k hjk (by omega)
      · rw [eraseAt_getD_lt _ _ _ _ hj', eraseAt_getD_ge _ _ _ _ (by omega), hfst, hfst]
        exact hstr j (k + 1) (by omega) (by omega)
    · rw [eraseAt_getD_ge _ _ _ _ (by omega), eraseAt_getD_ge _ _ _ _ (by omega),
        hfst, hfst]
      exact hstr (j + 1) (k + 1) (by omega) (by omega)
  · intro j hj
    rw [hL] at hj
    by_cases hj' : j < i + 1
    · by_cases hji : j = i
      · subst hji
        rw [eraseAt_getD_lt _ _ _ _ (by omega)]
        have hcond : parts.length ≤ j + 1 + 2 := by omega
        rw [show ((if 0 < j then
            setRank (setRank parts j (get_rank piece ranks parts j 1)) (j - 1)
              (get_rank piece ranks (setRank parts j (get_rank piece ranks parts j 1)) (j - 1) 1)
            else setRank parts j (get_rank piece ranks parts j 1)).getD j (0, none)).2 =
            get_rank piece ranks parts j 1 from hsnd_i]
        exact get_rank_none piece ranks parts j 1 (by omega)
      · omega
    · rw [eraseAt_getD_ge _ _ _ _ (by omega), hsnd_ne (j + 1) (by omega) (by omega)]
      exact hrb (j + 1) (by omega)

theorem initParts_length (piece : List Nat) (ranks : List Nat → Option Nat) :
    (initParts piece ranks).length = piece.length + 1 := by
  simp [initParts]

theorem initParts_getD (piece : List Nat) (ranks : List Nat → Option Nat) (j : Nat)
    (hj : j < piece.length + 1) :
    (initParts piece ranks).getD j (0, none) =
      (j, if j + 2 < piece.length + 1 then ranks (sliceL piece j (j + 2)) else none) := by
  rw [initParts, List.getD_eq_getElem?_getD, List.getElem?_map, List.getElem?_range hj]
  rfl

theorem initParts_inv (piece : List Nat) (ranks : List Nat → Option Nat)
    (h : piece ≠ []) : PartsInv piece.length (initParts piece ranks) := by
  have hpos : 0 < piece.length := List.length_pos.mpr h
  have hl := initParts_length piece ranks
  refine ⟨by omega, ?_, ?_, ?_, ?_⟩
  · rw [initParts_getD piece ranks 0 (by omega)]
  · rw [hl]
    have : piece.length + 1 - 1 = piece.length := by omega
    rw [this, initParts_getD piece ranks piece.length (by omega)]
  · intro j k hjk hk
    rw [hl] at hk
    rw [initParts_getD piece ranks j (by omega), initParts_getD piece ranks k (by omega)]
    exact hjk
  · intro j hj
    rw [hl] at hj
    by_cases hjl : j < piece.length + 1
    · rw [initParts_getD piece ranks j hjl]
      simp only
      rw [if_neg (by omega)]
    · rw [List.getD_eq_default]
      rw [initParts_length]
      omega

theorem mergeLoop_inv {n : Nat} (piece : List Nat) (ranks : List Nat → Option Nat) :
    ∀ (fuel : Nat) (parts : List (Nat × Option Nat)),
    PartsInv n parts → PartsInv n (mergeLoop piece ranks fuel parts)
  | 0, parts, h => h
  | fuel + 1, parts, h => by
    show PartsInv n (if parts.length ≤ 1 then parts
      else match minRank parts with
        | (some _, i) => mergeLoop piece ranks fuel (mergeStep piece ranks parts i)
        | (none, _) => parts)
    by_cases hl : parts.length ≤ 1
    · rw [if_pos hl]; exact h
    · rw [if_neg hl]
      rcases hm : minRank parts with ⟨mr, mi⟩
      cases mr with
      | none => exact h
      | some r =>
        exact mergeLoop_inv piece ranks fuel _
          (mergeStep_inv piece ranks parts r mi h hm).1

theorem zipRanges_length (parts : List (Nat × Option Nat)) :
    ((parts.zip parts.tail).map fun pq => (pq.1.1, pq.2.1)).length = parts.length - 1 := by
  simp [List.length_zip, List.length_tail]

theorem zipRanges_getD : ∀ (parts : List (Nat × Option Nat)) (j : Nat),
    j + 1 < parts.length →
    ((parts.zip parts.tail).map fun pq => (pq.1.1, pq.2.1)).getD j (0, 0) =
      ((parts.getD j (0, none)).1, (parts.getD (j + 1) (0, none)).1)
  | [], j, h => by simp at h
  | [p], j, h => by simp at h
  | p :: q :: rest, 0, _ => rfl
  | p :: q :: rest, j + 1, h => by
    have ih := zipRanges_getD (q :: rest) j (by simp at h ⊢; omega)
    simpa [List.getD_cons_succ] using ih

/-- C4: for every non-empty piece, `_byte_pair_merge` returns a non-empty
ordered sequence of index ranges that are contiguous (each range starts where
the previous one ends), non-overlapping and non-empty (each start is below
its end), with the first range starting at 0 and the last ending at the
piece's length. -/
theorem spec_c4 (piece : List Nat) (ranks : List Nat → Option Nat) (h : piece ≠ []) :
    byte_pair_merge piece ranks ≠ [] ∧
    ((byte_pair_merge piece ranks).getD 0 (0, 0)).1 = 0 ∧
    ((byte_pair_merge piece ranks).getD ((byte_pair_merge piece ranks).length - 1)
      (0, 0)).2 = piece.length ∧
    (∀ j, j + 1 < (byte_pair_merge piece ranks).length →
      ((byte_pair_merge piece ranks).getD j (0, 0)).2 =
        ((byte_pair_merge piece ranks).getD (j + 1) (0, 0)).1) ∧
    (∀ j, j < (byte_pair_merge piece ranks).length →
      ((byte_pair_merge piece ranks).getD j (0, 0)).1 <
        ((byte_pair_merge piece ranks).getD j (0, 0)).2) := by
  have hInv := mergeLoop_inv piece ranks (piece.length + 1) _ (initParts_inv piece ranks h)
  obtain ⟨hlen, h0, hlast, hstr, -⟩ := hInv
  have hbpm : byte_pair_merge piece ranks =
      ((mergeLoop piece ranks (piece.length + 1) (initParts piece ranks)).zip
        (mergeLoop piece ranks (piece.length + 1) (initParts piece ranks)).tail).map
        fun pq => (pq.1.1, pq.2.1) := rfl
  have hblen : (byte_pair_merge piece ranks).length =
      (mergeLoop piece ranks (piece.length + 1) (initParts piece ranks)).length - 1 := by
    rw [hbpm, zipRanges_length]
  refine ⟨?_, ?_, ?_, ?_, ?_⟩
  · apply List.ne_nil_of_length_pos
    rw [hblen]; omega
  · rw [hbpm, zipRanges_getD _ 0 (by omega)]
    exact h0
  · rw [hblen, hbpm, zipRanges_getD _ _ (by omega)]
    simp only
    have harith : (mergeLoop piece ranks (piece.length + 1) (initParts piece ranks)).length
        - 1 - 1 + 1 =
        (mergeLoop piece ranks (piece.length + 1) (initParts piece ranks)).length - 1 := by
      omega
    rw [harith, hlast]
  · intro j hj
    rw [hblen] at hj
    rw [hbpm, zipRanges_getD _ j (by omega), zipRanges_getD _ (j + 1) (by omega)]
  · intro j hj
    rw [hblen] at hj
    rw [hbpm, zipRanges_getD _ j (by omega)]
    exact hstr j (j + 1) (by omega) (by omega)

/-- Witness for C4 at the concrete piece `[97, 98]` with no mergeable pair:
the resulting ranges start at 0. -/
theorem spec_c4_witness :
    ((byte_pair_merge [97, 98] fun _ => none).getD 0 (0, 0)).1 = 0 :=
  (spec_c4 [97, 98] (fun _ => none) (by decide)).2.1

theorem map_nodup_inj {α β : Type} (f : α → β) :
    ∀ (l : List α), (l.map f).Nodup → ∀ a ∈ l, ∀ b ∈ l, f a = f b → a = b
  | [], _, a, ha, _, _, _ => absurd ha (by simp)
  | x :: xs, h, a, ha, b, hb, hf => by
    simp only [List.map_cons, List.nodup_cons] at h
    obtain ⟨hnx, hnd⟩ := h
    rcases List.mem_cons.mp ha with rfl | ha'
    · rcases List.mem_cons.mp hb with rfl | hb'
      · rfl
      · exact absurd (by rw [hf]; exact List.mem_map_of_mem f hb') hnx
    · rcases List.mem_cons.mp hb with rfl | hb'
      · exact absurd (by rw [← hf]; exact List.mem_map_of_mem f ha') hnx
      · exact map_nodup_inj f xs hnd a ha' b hb' hf

theorem encGet_decGet (E : CoreBPE) (hWF : E.WF) {bs : List Nat} {t : Nat}
    (h : E.encGet bs = some t) : E.decGet t = some bs := by
  rw [CoreBPE.encGet] at h
  obtain ⟨q, hq, hq2⟩ := Option.map_eq_some'.mp h
  have hqmem : q ∈ E.encoder := List.mem_of_find?_eq_some hq
  have hqkey : q.1 = bs := by simpa using List.find?_some hq
  rw [CoreBPE.decGet]
  have hex : (E.encoder.reverse.find? fun p => p.2 = t).isSome := by
    rw [List.find?_isSome]
    exact ⟨q, List.mem_reverse.mpr hqmem, by simp [hq2]⟩
  obtain ⟨w, hw⟩ := Option.isSome_iff_exists.mp hex
  have hwmem : w ∈ E.encoder := List.mem_reverse.mp (List.mem_of_find?_eq_some hw)
  have hwval : w.2 = t := by simpa using List.find?_some hw
  have hwq : w = q := map_nodup_inj Prod.snd E.encoder hWF.2 w hwmem q hqmem (by rw [hwval, hq2])
  rw [hw, hwq]
  simp [hqkey]

theorem decode_native_append (E : CoreBPE) : ∀ (ts us : List Nat),
    E.decode_native (ts ++ us) = E.decode_native ts ++ E.decode_native us
  | [], us => rfl
  | t :: ts, us => by
    simp only [List.cons_append, CoreBPE.decode_native, List.append_assoc]
    congr 1
    exact decode_native_append E ts us

theorem tokensOfRanges_decode (E : CoreBPE) (hWF : E.WF) (piece : List Nat) :
    ∀ (ranges : List (Nat × Nat)) (ts : List Nat),
    E.tokensOfRanges piece ranges = some ts →
    E.decode_native ts = (ranges.map fun rg => sliceL piece rg.1 rg.2).flatten
  | [], ts, h => by
    rw [CoreBPE.tokensOfRanges] at h
    cases h
    rfl
  | rg :: rgs, ts, h => by
    rw [CoreBPE.tokensOfRanges] at h
    cases henc : E.encGet (sliceL piece rg.1 rg.2) with
    | none => rw [henc] at h; exact absurd h (by simp)
    | some t =>
      rw [henc] at h
      obtain ⟨ts', hts', rfl⟩ := Option.map_eq_some'.mp h
      have ih := tokensOfRanges_decode E hWF piece rgs ts' hts'
      have hdec := encGet_decGet E hWF henc
      simp only [CoreBPE.decode_native, List.map_cons, List.flatten_cons, hdec, ih]

theorem sliceL_append {α : Type} (l : List α) (a b c : Nat) (hab : a ≤ b) (hbc : b ≤ c) :
    sliceL l a b ++ sliceL l b c = sliceL l a c := by
  show (l.drop a).take (b - a) ++ (l.drop b).take (c - b) = (l.drop a).take (c - a)
  rw [show c - a = (b - a) + (c - b) by omega, List.take_add]
  congr 1
  rw [List.drop_drop, show a + (b - a) = b by omega]

theorem parts_flatten_slices (piece : List Nat) : ∀ (parts : List (Nat × Option Nat)),
    (∀ j k, j < k → k < parts.length →
      (parts.getD j (0, none)).1 < (parts.getD k (0, none)).1) →
    parts ≠ [] →
    (((parts.zip parts.tail).map fun pq => (pq.1.1, pq.2.1)).map
      fun rg => sliceL piece rg.1 rg.2).flatten =
      sliceL piece ((parts.getD 0 (0, none)).1)
        ((parts.getD (parts.length - 1) (0, none)).1)
  | [], _, hne => absurd rfl hne
  | [p], _, _ => by simp [sliceL]
  | p :: q :: rest, hstr, _ => by
    have hstr' : ∀ j k, j < k → k < (q :: rest).length →
        ((q :: rest).getD j (0, none)).1 < ((q :: rest).getD k (0, none)).1 := by
      intro j k hjk hk
      have := hstr (j + 1) (k + 1) (by omega) (by simp at hk ⊢; omega)
      simpa [List.getD_cons_succ] using this
    have ih := parts_flatten_slices piece (q :: rest) hstr' (by simp)
    have hpq : p.1 < q.1 := by simpa using hstr 0 1 (by omega) (by simp)
    have hfl : q.1 ≤ ((q :: rest).getD ((q :: rest).length - 1) (0, none)).1 := by
      by_cases h0 : (q :: rest).length - 1 = 0
      · rw [h0]; exact Nat.le.refl
      · have := hstr' 0 ((q :: rest).length - 1) (by omega) (by simp)
        simpa using this.le
    have hstep : ((((p :: q :: rest).zip (p :: q :: rest).tail).map
        fun pq => (pq.1.1, pq.2.1)).map fun rg => sliceL piece rg.1 rg.2).flatten =
        sliceL piece p.1 q.1 ++
        ((((q :: rest).zip (q :: rest).tail).map fun pq => (pq.1.1, pq.2.1)).map
          fun rg => sliceL piece rg.1 rg.2).flatten := rfl
    have hq0 : ((q :: rest).getD 0 (0, none)).1 = q.1 := rfl
    rw [hstep, ih, hq0, sliceL_append piece p.1 q.1 _ hpq.le hfl]
    have hidx : ((p :: q :: rest).getD ((p :: q :: rest).length - 1) (0, none)) =
        ((q :: rest).getD ((q :: rest).length - 1) (0, none)) := by
      have : (p :: q :: rest).length - 1 = ((q :: rest).length - 1) + 1 := by simp
      rw [this, List.getD_cons_succ]
    rw [hidx]
    rfl

theorem byte_pair_encode_decode (E : CoreBPE) (hWF : E.WF) (bs : List Nat)
    (ts : List Nat) (h : E.byte_pair_encode bs = some ts) :
    E.decode_native ts = bs := by
  rw [CoreBPE.byte_pair_encode] at h
  by_cases h1 : bs.length = 1
  · rw [if_pos h1] at h
    obtain ⟨t, ht, rfl⟩ := Option.map_eq_some'.mp h
    have hdec := encGet_decGet E hWF ht
    simp [CoreBPE.decode_native, hdec]
  · rw [if_neg h1] at h
    by_cases hnil : bs = []
    · subst hnil
      have hr : byte_pair_merge [] E.encGet = [] := rfl
      rw [hr] at h
      rw [CoreBPE.tokensOfRanges] at h
      cases h
      rfl
    · have hInv := mergeLoop_inv (n := bs.length) bs E.encGet
        (bs.length + 1) _ (initParts_inv bs E.encGet hnil)
      obtain ⟨hlen, h0, hlast, hstr, -⟩ := hInv
      have hjoin := parts_flatten_slices bs
        (mergeLoop bs E.encGet (bs.length + 1) (initParts bs E.encGet)) hstr
        (by apply List.ne_nil_of_length_pos; omega)
      have hdec := tokensOfRanges_decode E hWF bs (byte_pair_merge bs E.encGet) ts h
      rw [hdec]
      have hbpm : byte_pair_merge bs E.encGet =
          ((mergeLoop bs E.encGet (bs.length + 1) (initParts bs E.encGet)).zip
            (mergeLoop bs E.encGet (bs.length + 1) (initParts bs E.encGet)).tail).map
            fun pq => (pq.1.1, pq.2.1) := rfl
      rw [hbpm, hjoin, h0, hlast]
      show (bs.drop 0).take (bs.length - 0) = bs
      simp

theorem bytesOf_append (E : CoreBPE) (s1 s2 : List Nat) :
    E.bytesOf (s1 ++ s2) = E.bytesOf s1 ++ E.bytesOf s2 := by
  simp [CoreBPE.bytesOf]

theorem bytesOf_flatten (E : CoreBPE) : ∀ (ps : List (List Nat)),
    E.bytesOf ps.flatten = (ps.map E.bytesOf).flatten
  | [] => rfl
  | p :: ps => by
    simp only [List.flatten_cons, bytesOf_append, List.map_cons, bytesOf_flatten E ps]

theorem encodePieces_decode (E : CoreBPE) (hWF : E.WF) : ∀ (ps : List (List Nat))
    (ts : List Nat), E.encodeOrdinaryPieces ps = some ts →
    E.decode_native ts = (ps.map E.bytesOf).flatten
  | [], ts, h => by
    rw [CoreBPE.encodeOrdinaryPieces] at h
    cases h
    rfl
  | p :: ps, ts, h => by
    rw [CoreBPE.encodeOrdinaryPieces] at h
    cases henc : E.encGet (E.bytesOf p) with
    | some t =>
      rw [henc] at h
      obtain ⟨ts', hts', rfl⟩ := Option.map_eq_some'.mp h
      have ih := encodePieces_decode E hWF ps ts' hts'
      have hdec := encGet_decGet E hWF henc
      simp only [CoreBPE.decode_native, List.map_cons, List.flatten_cons, hdec, ih]
    | none =>
      rw [henc] at h
      cases hbpe : E.byte_pair_encode (E.bytesOf p) with
      | none => rw [hbpe] at h; exact absurd h (by simp)
      | some tks =>
        rw [hbpe] at h
        obtain ⟨ts', hts', rfl⟩ := Option.map_eq_some'.mp h
        have ih := encodePieces_decode E hWF ps ts' hts'
        have hdec := byte_pair_encode_decode E hWF (E.bytesOf p) tks hbpe
        rw [decode_native_append, hdec, ih]
        simp

/-- C2: for every engine passing the construction-time duplicate check, and
every text fully covered by the pretokenizer matches, a successful
`encode_ordinary` round-trips: `decode_bytes` of the tokens is exactly the
UTF-8 encoding of the text. -/
theorem spec_c2 (E : CoreBPE) (text : List Nat) (ts : List Nat) (hWF : E.WF)
    (hcov : (E.pretok text).flatten = text)
    (henc : E.encode_ordinary text = some ts) :
    E.decode_bytes ts = E.bytesOf text := by
  rw [CoreBPE.encode_ordinary] at henc
  have := encodePieces_decode E hWF (E.pretok text) ts henc
  rw [CoreBPE.decode_bytes, this, ← bytesOf_flatten, hcov]

/-- Witness for C2: the engine `engA`, the text `"ab"`, its token sequence
`[1, 2]`; both hypotheses hold and the round-trip equation follows by
applying the theorem. -/
theorem spec_c2_witness :
    engA.WF ∧ (engA.pretok [97, 98]).flatten = [97, 98] ∧
    engA.encode_ordinary [97, 98] = some [1, 2] ∧
    engA.decode_bytes [1, 2] = engA.bytesOf [97, 98] :=
  ⟨⟨by decide, by decide⟩, by decide, by decide,
    spec_c2 engA [97, 98] [1, 2] ⟨by decide, by decide⟩ (by decide) (by decide)⟩

theorem processPieces_fst (E : CoreBPE) : ∀ (ps : List (List Nat)) (ret : List Nat)
    (l : Nat), (E.processPieces ps ret l).map Prod.fst =
      (E.encodeOrdinaryPieces ps).map fun ts => ret ++ ts
  | [], ret, l => by simp [CoreBPE.processPieces, CoreBPE.encodeOrdinaryPieces]
  | p :: ps, ret, l => by
    rw [CoreBPE.processPieces, CoreBPE.encodeOrdinaryPieces]
    cases henc : E.encGet (E.bytesOf p) with
    | some t =>
      rw [processPieces_fst E ps (ret ++ [t]) 1]
      cases E.encodeOrdinaryPieces ps <;> simp
    | none =>
      cases hbpe : E.byte_pair_encode (E.bytesOf p) with
      | none => rfl
      | some tks =>
        rw [processPieces_fst E ps (ret ++ tks) tks.length]
        cases E.encodeOrdinaryPieces ps <;> simp

theorem innerFind_nil_allowed (E : CoreBPE) (text : List Nat) : ∀ (f p : Nat)
    (r : Option (Nat × Nat)), E.innerFind [] text f p = some r → r = none
  | 0, p, r, h => by rw [CoreBPE.innerFind] at h; exact absurd h (by simp)
  | f + 1, p, r, h => by
    rw [CoreBPE.innerFind] at h
    cases hs : special_regex_search (E.special_tokens_encoder.map Prod.fst) text p with
    | none =>
      rw [hs] at h
      cases h
      rfl
    | some se =>
      obtain ⟨s, e⟩ := se
      rw [hs] at h
      replace h : (if sliceL text s e ∈ ([] : List (List Nat)) then some (some (s, e))
          else E.innerFind [] text f e) = some r := h
      rw [if_neg (by simp)] at h
      exact innerFind_nil_allowed E text f e r h

theorem encode_native_nil_allowed (E : CoreBPE) (fuel : Nat) (text ts : List Nat)
    (l : Nat) (h : E.encode_native fuel text [] = some (some (ts, l))) :
    E.encode_ordinary text = some ts := by
  rw [CoreBPE.encode_native] at h
  cases fuel with
  | zero => rw [CoreBPE.encodeNativeGo] at h; exact absurd h (by simp)
  | succ f =>
    rw [CoreBPE.encodeNativeGo] at h
    cases hf : E.innerFind [] text (text.length + 1) 0 with
    | none => rw [hf] at h; exact absurd h (by simp)
    | some nsp =>
      have hnsp := innerFind_nil_allowed E text _ _ _ hf
      subst hnsp
      rw [hf] at h
      replace h : (match E.processPieces (E.pretok (sliceL text 0 text.length)) [] 0 with
        | none => some none
        | some (ret1, last1) => some (some (ret1, last1))) = some (some (ts, l)) := h
      rw [show sliceL text 0 text.length = text by simp [sliceL]] at h
      cases hp : E.processPieces (E.pretok text) [] 0 with
      | none => rw [hp] at h; exact absurd h (by simp)
      | some pr =>
        obtain ⟨ret1, last1⟩ := pr
        rw [hp] at h
        replace h : (some (some (ret1, last1)) : Option (Option (List Nat × Nat))) =
          some (some (ts, l)) := h
        have hts : ret1 = ts := by
          have := Option.some.inj (Option.some.inj h)
          exact congrArg Prod.fst this
        have hfst := processPieces_fst E (E.pretok text) [] 0
        rw [hp] at hfst
        rw [CoreBPE.encode_ordinary]
        cases ho : E.encodeOrdinaryPieces (E.pretok text) with
        | none => rw [ho] at hfst; exact absurd hfst (by simp)
        | some ts' =>
          rw [ho] at hfst
          simp at hfst
          rw [← hfst, hts]

/-- C1: with `allowed_special` empty, a terminating, non-raising
`_encode_native` run encodes any text exactly as `encode_ordinary` does (for
every engine); and on the concrete engine `engA` with text
`"a<|endoftext|>b"`, allowing the end-of-text literal yields
`encode_ordinary("a") ++ [50256] ++ encode_ordinary("b")`, while allowing
nothing yields exactly `encode_ordinary` of the whole text with the reserved
id 50256 nowhere in it. -/
theorem spec_c1 :
    (∀ (E : CoreBPE) (fuel : Nat) (text ts : List Nat) (l : Nat),
      E.encode_native fuel text [] = some (some (ts, l)) →
      E.encode_ordinary text = some ts) ∧
    engA.encode_ordinary [97] = some [1] ∧
    engA.encode_ordinary [98] = some [2] ∧
    engA.encode_native 16 ([97] ++ eotLit ++ [98]) [eotLit] =
      some (some ([1] ++ [50256] ++ [2], 1)) ∧
    engA.encode_ordinary ([97] ++ eotLit ++ [98]) =
      some [1, 3, 4, 5, 6, 7, 8, 9, 10, 5, 11, 10, 4, 12, 2] ∧
    engA.encode_native 16 ([97] ++ eotLit ++ [98]) [] =
      some (some ([1, 3, 4, 5, 6, 7, 8, 9, 10, 5, 11, 10, 4, 12, 2], 1)) ∧
    (50256 : Nat) ∉ [1, 3, 4, 5, 6, 7, 8, 9, 10, 5, 11, 10, 4, 12, 2] :=
  ⟨encode_native_nil_allowed, by decide, by decide, by decide, by decide, by decide,
    by decide⟩

/-- Witness for C1's general conjunct at the concrete engine and text. -/
theorem spec_c1_witness :
    engA.encode_ordinary ([97] ++ eotLit ++ [98]) =
      some [1, 3, 4, 5, 6, 7, 8, 9, 10, 5, 11, 10, 4, 12, 2] :=
  spec_c1.1 engA 16 ([97] ++ eotLit ++ [98]) _ 1 (by decide)

theorem tokensOfRanges_ne_nil (E : CoreBPE) (piece : List Nat) (rg : Nat × Nat)
    (rgs : List (Nat × Nat)) (ts : List Nat)
    (h : E.tokensOfRanges piece (rg :: rgs) = some ts) : ts ≠ [] := by
  rw [CoreBPE.tokensOfRanges] at h
  cases henc : E.encGet (sliceL piece rg.1 rg.2) with
  | none => rw [henc] at h; exact absurd h (by simp)
  | some t =>
    rw [henc] at h
    obtain ⟨ts', -, rfl⟩ := Option.map_eq_some'.mp h
    simp

theorem bpm_ne_nil (piece : List Nat) (ranks : List Nat → Option Nat)
    (h : piece ≠ []) : byte_pair_merge piece ranks ≠ [] := by
  have hInv := mergeLoop_inv piece ranks (piece.length + 1) _ (initParts_inv piece ranks h)
  obtain ⟨hlen, -, -, -, -⟩ := hInv
  have hbpm : byte_pair_merge piece ranks =
      ((mergeLoop piece ranks (piece.length + 1) (initParts piece ranks)).zip
        (mergeLoop piece ranks (piece.length + 1) (initParts piece ranks)).tail).map
        fun pq => (pq.1.1, pq.2.1) := rfl
  apply List.ne_nil_of_length_pos
  rw [hbpm, zipRanges_length]
  omega

theorem byte_pair_encode_ne_nil (E : CoreBPE) (bs tks : List Nat)
    (h : E.byte_pair_encode bs = some tks) (hbs : bs ≠ []) : tks ≠ [] := by
  rw [CoreBPE.byte_pair_encode] at h
  by_cases h1 : bs.length = 1
  · rw [if_pos h1] at h
    obtain ⟨t, -, rfl⟩ := Option.map_eq_some'.mp h
    simp
  · rw [if_neg h1] at h
    obtain ⟨rg, rgs, hr⟩ := List.exists_cons_of_ne_nil (bpm_ne_nil bs E.encGet hbs)
    rw [hr] at h
    exact tokensOfRanges_ne_nil E bs rg rgs tks h

theorem processPieces_last (E : CoreBPE) : ∀ (ps0 : List (List Nat))
    (p ret ts : List Nat) (lastLen l : Nat),
    E.processPieces (ps0 ++ [p]) ret lastLen = some (ts, l) →
    ∃ tks : List Nat,
      ((∃ t, E.encGet (E.bytesOf p) = some t ∧ tks = [t]) ∨
        (E.encGet (E.bytesOf p) = none ∧
          E.byte_pair_encode (E.bytesOf p) = some tks)) ∧
      l = tks.length ∧ (∃ pre, ts = pre ++ tks) ∧ (E.bytesOf p ≠ [] → 0 < l)
  | [], p, ret, ts, lastLen, l, h => by
    rw [List.nil_append, CoreBPE.processPieces] at h
    cases henc : E.encGet (E.bytesOf p) with
    | some t =>
      rw [henc] at h
      replace h : (some (ret ++ [t], 1) : Option (List Nat × Nat)) = some (ts, l) := h
      rw [Option.some.injEq, Prod.mk.injEq] at h
      obtain ⟨rfl, rfl⟩ := h
      exact ⟨[t], Or.inl ⟨t, rfl, rfl⟩, rfl, ⟨ret, rfl⟩, fun _ => Nat.one_pos⟩
    | none =>
      rw [henc] at h
      cases hbpe : E.byte_pair_encode (E.bytesOf p) with
      | none => rw [hbpe] at h; exact absurd h (by simp)
      | some tks =>
        rw [hbpe] at h
        replace h : (some (ret ++ tks, tks.length) : Option (List Nat × Nat)) =
          some (ts, l) := h
        rw [Option.some.injEq, Prod.mk.injEq] at h
        obtain ⟨rfl, rfl⟩ := h
        refine ⟨tks, Or.inr ⟨rfl, rfl⟩, rfl, ⟨ret, rfl⟩, fun hbs => ?_⟩
        have hne := byte_pair_encode_ne_nil E (E.bytesOf p) tks hbpe hbs
        cases tks with
        | nil => exact absurd rfl hne
        | cons a l' => simp
  | q :: ps0, p, ret, ts, lastLen, l, h => by
    rw [List.cons_append, CoreBPE.processPieces] at h
    cases henc : E.encGet (E.bytesOf q) with
    | some t =>
      rw [henc] at h
      exact processPieces_last E ps0 p (ret ++ [t]) ts 1 l h
    | none =>
      rw [henc] at h
      cases hbpe : E.byte_pair_encode (E.bytesOf q) with
      | none => rw [hbpe] at h; exact absurd h (by simp)
      | some tks =>
        rw [hbpe] at h
        exact processPieces_last E ps0 p (ret ++ tks) ts tks.length l h


/-- C6 (code bug): on `engB` with text `"ab"` and no allowed specials, the
encode yields `last_piece_token_len = 2 > 0`, the unstable trailing tokens
decode to the non-empty bytes `[97, 98]`, the stable tokens are truncated to
`[]` — yet `_encode_unstable_native` returns an empty completion set, because
the completion enumeration is an unimplemented stub in the source.  (When
the text instead ends exactly on a reserved token, `last_piece_token_len` is
0 and the tokens are correctly returned unchanged with an empty set.) -/
theorem spec_c6 :
    engB.encode_native 16 [97, 98] [] = some (some ([1, 2], 2)) ∧
    engB.decode_native [1, 2] = [97, 98] ∧
    ([97, 98] : List Nat) ≠ [] ∧
    engB.encode_unstable_native 16 [97, 98] [] = some (some ([], [])) ∧
    engB.encode_with_unstable 16 [97, 98] [] = some (some ([], [])) ∧
    engB.encode_native 16 ([97] ++ eotLit) [eotLit] = some (some ([1, 50256], 0)) ∧
    engB.encode_unstable_native 16 ([97] ++ eotLit) [eotLit] =
      some (some ([1, 50256], [])) := by
  refine ⟨by decide, by decide, by decide, by decide, by decide, by decide, by decide⟩

/-- C7 (code bug): token 5 of `engC` decodes to a single space byte, so the
spec's whitespace predicate holds and the intended extension widens
`last_piece_token_len` from 1 to 2; but the source's `token_is_all_space`
compares each byte (an `int`) against single-byte `bytes` objects, which is
always false in Python 3, so the code leaves `last_piece_token_len` at 1. -/
theorem spec_c7 :
    engC.decGet 5 = some [32] ∧
    engC.token_is_all_space_spec 5 = true ∧
    engC.token_is_all_space 5 = false ∧
    engC.increase_last_piece_token_len [5, 5] 1 = ([5, 5], 1) ∧
    engC.increase_last_piece_token_len_spec [5, 5] 1 = ([5, 5], 2) := by
  refine ⟨by decide, by decide, by decide, by decide, by decide⟩

theorem decode_native_filterMap (E : CoreBPE) : ∀ (tokens : List Nat),
    E.decode_native tokens = (tokens.filterMap fun t =>
      match E.decGet t with
      | some bs => some bs
      | none => E.specialDecGet t).flatten
  | [] => rfl
  | t :: ts => by
    rw [CoreBPE.decode_native, List.filterMap_cons]
    cases hd : E.decGet t with
    | some bs => simp [hd, decode_native_filterMap E ts]
    | none =>
      cases hsd : E.specialDecGet t with
      | some bs => simp [hd, hsd, decode_native_filterMap E ts]
      | none => simp [hd, hsd, decode_native_filterMap E ts]

/-- C8: `decode_bytes` never fails: it is the concatenation, in order, of the
byte sequences of the ids found in the rank table or, as a fallback, the
special table, with unknown ids silently dropped; concretely
`decode_bytes([1, 999999999])` on `engA` returns exactly the bytes of id 1. -/
theorem spec_c8 :
    (∀ (E : CoreBPE) (tokens : List Nat),
      E.decode_bytes tokens = (tokens.filterMap fun t =>
        match E.decGet t with
        | some bs => some bs
        | none => E.specialDecGet t).flatten) ∧
    engA.decode_bytes [1, 999999999] = [97] ∧
    engA.decGet 1 = some [97] ∧
    engA.decGet 999999999 = none ∧
    engA.specialDecGet 999999999 = none :=
  ⟨fun E tokens => decode_native_filterMap E tokens, by decide, by decide, by decide,
    by decide⟩

/-- C9 counterexample: in `engD` the rank table maps id 7 to the empty byte
sequence, so id 7 is present in the inverse rank table, yet
`decode_single_token_bytes` raises (Python `or` treats `b""` as falsy). -/
theorem spec_c9_cex :
    engD.decGet 7 = some [] ∧ engD.decode_single_token_bytes 7 = none := by
  refine ⟨by decide, by decide⟩

/-- C9 (amended): `decode_single_token_bytes` fails iff the id is absent from
the special table and its rank-table entry is absent or the empty byte
sequence; a non-empty rank-table entry is returned as-is, and otherwise a
special-table entry is returned. -/
theorem spec_c9 (E : CoreBPE) (t : Nat) :
    (E.decode_single_token_bytes t = none ↔
      E.specialDecGet t = none ∧ (E.decGet t = none ∨ E.decGet t = some [])) ∧
    (∀ bs, E.decGet t = some bs → bs ≠ [] →
      E.decode_single_token_bytes t = some bs) ∧
    ((E.decGet t = none ∨ E.decGet t = some []) →
      ∀ bs, E.specialDecGet t = some bs →
      E.decode_single_token_bytes t = some bs) := by
  refine ⟨?_, ?_, ?_⟩
  · rw [CoreBPE.decode_single_token_bytes]
    cases hd : E.decGet t with
    | none => simp
    | some bs =>
      by_cases hbs : bs = []
      · subst hbs; simp
      · simp [hbs]
  · intro bs hd hbs
    rw [CoreBPE.decode_single_token_bytes, hd]
    show (if bs = [] then E.specialDecGet t else some bs) = some bs
    rw [if_neg hbs]
  · intro hor bs hsd
    rw [CoreBPE.decode_single_token_bytes]
    rcases hor with hd | hd
    · rw [hd]; exact hsd
    · rw [hd]
      show (if ([] : List Nat) = [] then E.specialDecGet t else some []) = some bs
      rw [if_pos rfl]; exact hsd

/-- Witness for C9's amended claim: a non-empty rank-table entry and a
special-table fallback, both on `engD`. -/
theorem spec_c9_witness :
    engD.decode_single_token_bytes 3 = some [120] ∧
    engD.decode_single_token_bytes 9 = some [115] :=
  ⟨(spec_c9 engD 3).2.1 [120] (by decide) (by decide),
   (spec_c9 engD 9).2.2 (Or.inl (by decide)) [115] (by decide)⟩

theorem searchFrom_some (specials : List (List Nat)) (text : List Nat) :
    ∀ (k p s e : Nat), searchFrom specials text k p = some (s, e) →
    p ≤ s ∧ ∃ L, firstLitAt specials text s = some L ∧ e = s + L
  | 0, p, s, e, h => by rw [searchFrom] at h; exact absurd h (by simp)
  | k + 1, p, s, e, h => by
    rw [searchFrom] at h
    cases hm : firstLitAt specials text p with
    | some L =>
      rw [hm] at h
      rw [Option.some.injEq, Prod.mk.injEq] at h
      obtain ⟨rfl, rfl⟩ := h
      exact ⟨Nat.le_refl p, L, hm, rfl⟩
    | none =>
      rw [hm] at h
      have := searchFrom_some specials text k (p + 1) s e h
      exact ⟨by omega, this.2⟩

theorem firstLitAt_bounds (specials : List (List Nat)) (text : List Nat) (s L : Nat)
    (hne : ∀ lit ∈ specials, lit ≠ []) (h : firstLitAt specials text s = some L) :
    1 ≤ L ∧ s + L ≤ text.length := by
  rw [firstLitAt] at h
  obtain ⟨lit, hfind, hlen⟩ := Option.map_eq_some'.mp h
  have hmem := List.mem_of_find?_eq_some hfind
  have hpred : sliceL text s (s + lit.length) = lit := by
    simpa using List.find?_some hfind
  have hnil := hne lit hmem
  have hL : L = lit.length := hlen.symm
  subst hL
  have h1 : 1 ≤ lit.length := by
    cases lit with
    | nil => exact absurd rfl hnil
    | cons a l => simp
  refine ⟨h1, ?_⟩
  have hlen2 : (sliceL text s (s + lit.length)).length = lit.length := by rw [hpred]
  rw [sliceL] at hlen2
  simp [List.length_take, List.length_drop] at hlen2
  omega

theorem search_bounds (specials : List (List Nat)) (text : List Nat) (pos s e : Nat)
    (hnil : specials ≠ []) (hne : ∀ lit ∈ specials, lit ≠ [])
    (h : special_regex_search specials text pos = some (s, e)) :
    pos ≤ s ∧ s + 1 ≤ e ∧ e ≤ text.length := by
  rw [special_regex_search, if_neg hnil] at h
  obtain ⟨hps, L, hL, rfl⟩ := searchFrom_some specials text _ pos s e h
  obtain ⟨h1, h2⟩ := firstLitAt_bounds specials text s L hne hL
  exact ⟨hps, by omega, h2⟩

theorem innerFind_some_bounds (E : CoreBPE) (allowed : List (List Nat))
    (text : List Nat) (hnil : E.special_tokens_encoder.map Prod.fst ≠ [])
    (hne : ∀ lit ∈ E.special_tokens_encoder.map Prod.fst, lit ≠ []) :
    ∀ (f p s e : Nat), E.innerFind allowed text f p = some (some (s, e)) →
    p ≤ s ∧ s < e ∧ e ≤ text.length
  | 0, p, s, e, h => by rw [CoreBPE.innerFind] at h; exact absurd h (by simp)
  | f + 1, p, s, e, h => by
    rw [CoreBPE.innerFind] at h
    cases hs : special_regex_search (E.special_tokens_encoder.map Prod.fst) text p with
    | none => rw [hs] at h; exact absurd h (by simp)
    | some se =>
      obtain ⟨s0, e0⟩ := se
      rw [hs] at h
      replace h : (if sliceL text s0 e0 ∈ allowed then some (some (s0, e0))
          else E.innerFind allowed text f e0) = some (some (s, e)) := h
      obtain ⟨hps, hse, hel⟩ := search_bounds _ text p s0 e0 hnil hne hs
      by_cases hal : sliceL text s0 e0 ∈ allowed
      · rw [if_pos hal, Option.some.injEq, Option.some.injEq, Prod.mk.injEq] at h
        obtain ⟨rfl, rfl⟩ := h
        exact ⟨hps, by omega, hel⟩
      · rw [if_neg hal] at h
        have := innerFind_some_bounds E allowed text hnil hne f e0 s e h
        exact ⟨by omega, this.2⟩

theorem innerFind_ne_none (E : CoreBPE) (allowed : List (List Nat)) (text : List Nat)
    (hnil : E.special_tokens_encoder.map Prod.fst ≠ [])
    (hne : ∀ lit ∈ E.special_tokens_encoder.map Prod.fst, lit ≠ []) :
    ∀ (f p : Nat), text.length - p < f → E.innerFind allowed text f p ≠ none
  | 0, p, hf => by omega
  | f + 1, p, hf => by
    rw [CoreBPE.innerFind]
    cases hs : special_regex_search (E.special_tokens_encoder.map Prod.fst) text p with
    | none => simp
    | some se =>
      obtain ⟨s0, e0⟩ := se
      show (if sliceL text s0 e0 ∈ allowed then some (some (s0, e0))
          else E.innerFind allowed text f e0) ≠ none
      by_cases hal : sliceL text s0 e0 ∈ allowed
      · rw [if_pos hal]; simp
      · rw [if_neg hal]
        obtain ⟨hps, hse, hel⟩ := search_bounds _ text p s0 e0 hnil hne hs
        exact innerFind_ne_none E allowed text hnil hne f e0 (by omega)

theorem encodeNativeGo_ne_none (E : CoreBPE) (allowed : List (List Nat))
    (text : List Nat) (hnil : E.special_tokens_encoder.map Prod.fst ≠ [])
    (hne : ∀ lit ∈ E.special_tokens_encoder.map Prod.fst, lit ≠ []) :
    ∀ (f start : Nat) (ret : List Nat) (lastLen : Nat),
    text.length - start < f →
    E.encodeNativeGo allowed text f start ret lastLen ≠ none
  | 0, start, ret, lastLen, hf => by omega
  | f + 1, start, ret, lastLen, hf => by
    rw [CoreBPE.encodeNativeGo]
    cases hif : E.innerFind allowed text (text.length + 1) start with
    | none =>
      exact absurd hif (innerFind_ne_none E allowed text hnil hne _ start (by omega))
    | some nsp =>
      cases nsp with
      | none =>
        show (match E.processPieces (E.pretok (sliceL text start text.length))
            ret lastLen with
          | none => some none
          | some (ret1, last1) => some (some (ret1, last1))) ≠ none
        cases hp : E.processPieces (E.pretok (sliceL text start text.length))
            ret lastLen with
        | none => simp
        | some pr => obtain ⟨r1, l1⟩ := pr; simp
      | some se =>
        obtain ⟨s, e⟩ := se
        obtain ⟨hps, hse, hel⟩ :=
          innerFind_some_bounds E allowed text hnil hne _ start s e hif
        show (match E.processPieces (E.pretok (sliceL text start s)) ret lastLen with
          | none => some none
          | some (ret1, _last1) =>
            match E.specialEncGet (sliceL text s e) with
            | some t => E.encodeNativeGo allowed text f e (ret1 ++ [t]) 0
            | none => E.encodeNativeGo allowed text f e ret1 0) ≠ none
        cases hp : E.processPieces (E.pretok (sliceL text start s)) ret lastLen with
        | none => simp
        | some pr =>
          obtain ⟨r1, l1⟩ := pr
          show (match E.specialEncGet (sliceL text s e) with
            | some t => E.encodeNativeGo allowed text f e (r1 ++ [t]) 0
            | none => E.encodeNativeGo allowed text f e r1 0) ≠ none
          cases hse2 : E.specialEncGet (sliceL text s e) with
          | some t =>
            exact encodeNativeGo_ne_none E allowed text hnil hne f e (r1 ++ [t]) 0
              (by omega)
          | none =>
            exact encodeNativeGo_ne_none E allowed text hnil hne f e r1 0 (by omega)

theorem innerFind_empty_table (E : CoreBPE) (allowed : List (List Nat))
    (text : List Nat) (hE : E.special_tokens_encoder = []) (hal : [] ∉ allowed) :
    ∀ (f p : Nat), p ≤ text.length → E.innerFind allowed text f p = none
  | 0, p, _ => by rw [CoreBPE.innerFind]
  | f + 1, p, hp => by
    rw [CoreBPE.innerFind]
    have hs : special_regex_search (E.special_tokens_encoder.map Prod.fst) text p =
        some (p, p) := by
      rw [hE]
      simp [special_regex_search, hp]
    rw [hs]
    have hslice : sliceL text p p = [] := by simp [sliceL]
    show (if sliceL text p p ∈ allowed then some (some (p, p))
        else E.innerFind allowed text f p) = none
    rw [hslice, if_neg hal]
    exact innerFind_empty_table E allowed text hE hal f p hp

/-- C10: for an engine with a non-empty special-token table whose literals
are all non-empty, `_encode_native` terminates on every text: each skipped
disallowed match strictly advances the search position (an admissible match
ends strictly after it starts and within the text), and fuel
`text.length + 1` suffices for the whole loop; with an empty special-token
table, the compiled pattern (the empty alternation) matches the empty string
at the cursor and the skip loop never advances (it exhausts any amount of
fuel). -/
theorem spec_c10 :
    (∀ (specials : List (List Nat)) (text : List Nat) (pos s e : Nat),
      specials ≠ [] → (∀ lit ∈ specials, lit ≠ []) →
      special_regex_search specials text pos = some (s, e) →
      pos ≤ s ∧ s < e ∧ e ≤ text.length) ∧
    (∀ (E : CoreBPE), E.special_tokens_encoder.map Prod.fst ≠ [] →
      (∀ lit ∈ E.special_tokens_encoder.map Prod.fst, lit ≠ []) →
      ∀ (text : List Nat) (allowed : List (List Nat)) (fuel : Nat),
      text.length < fuel → E.encode_native fuel text allowed ≠ none) ∧
    (∀ (text : List Nat) (p : Nat), p ≤ text.length →
      special_regex_search [] text p = some (p, p)) ∧
    (∀ (E : CoreBPE) (allowed : List (List Nat)) (text : List Nat),
      E.special_tokens_encoder = [] → [] ∉ allowed →
      ∀ (f p : Nat), p ≤ text.length → E.innerFind allowed text f p = none) := by
  refine ⟨?_, ?_, ?_, ?_⟩
  · intro specials text pos s e hnil hne h
    obtain ⟨h1, h2, h3⟩ := search_bounds specials text pos s e hnil hne h
    exact ⟨h1, by omega, h3⟩
  · intro E hnil hne text allowed fuel hfuel
    rw [CoreBPE.encode_native]
    exact encodeNativeGo_ne_none E allowed text hnil hne fuel 0 [] 0 (by omega)
  · intro text p hp
    simp [special_regex_search, hp]
  · exact innerFind_empty_table

/-- Witness for C10: `engA` has one non-empty literal, so encoding `"ab"`
with fuel 3 terminates; and with an empty table (`engC`) the skip loop
returns no result for any fuel. -/
theorem spec_c10_witness :
    engA.encode_native 3 [97, 98] [] ≠ none ∧
    special_regex_search [] [97, 98] 0 = some (0, 0) ∧
    engC.innerFind [] [97, 98] 5 0 = none :=
  ⟨spec_c10.2.1 engA (by decide) (by decide) [97, 98] [] 3 (by decide),
   spec_c10.2.2.1 [97, 98] 0 (by decide),
   spec_c10.2.2.2 engC [] [97, 98] (by decide) (by decide) 5 0 (by decide)⟩

theorem firstLitAt_end (specials : List (List Nat)) (text : List Nat) (p : Nat)
    (hne : ∀ lit ∈ specials, lit ≠ []) (hp : text.length ≤ p) :
    firstLitAt specials text p = none := by
  cases h : firstLitAt specials text p with
  | none => rfl
  | some L =>
    exfalso
    obtain ⟨h1, h2⟩ := firstLitAt_bounds specials text p L hne h
    omega

theorem searchFrom_end (specials : List (List Nat)) (text : List Nat)
    (hne : ∀ lit ∈ specials, lit ≠ []) : ∀ (k p : Nat), text.length ≤ p →
    searchFrom specials text k p = none
  | 0, _, _ => rfl
  | k + 1, p, hp => by
    rw [searchFrom, firstLitAt_end specials text p hne hp]
    exact searchFrom_end specials text hne k (p + 1) (by omega)

theorem search_at_end (specials : List (List Nat)) (text : List Nat)
    (hnil : specials ≠ []) (hne : ∀ lit ∈ specials, lit ≠ []) :
    special_regex_search specials text text.length = none := by
  rw [special_regex_search, if_neg hnil]
  exact searchFrom_end specials text hne _ text.length (Nat.le_refl _)

theorem innerFind_at_end (E : CoreBPE) (allowed : List (List Nat)) (text : List Nat)
    (hnil : E.special_tokens_encoder.map Prod.fst ≠ [])
    (hne : ∀ lit ∈ E.special_tokens_encoder.map Prod.fst, lit ≠ []) (f : Nat) :
    E.innerFind allowed text (f + 1) text.length = some none := by
  rw [CoreBPE.innerFind,
    search_at_end (E.special_tokens_encoder.map Prod.fst) text hnil hne]

/-- C3: `_encode_native` returns the tokens together with
`last_piece_token_len`.  Universally: (1) the segment loop's returned
`last_piece_token_len` is exactly the number of tokens produced for the final
pretokenizer match, those tokens are the tail of the output, and the count is
positive when the match has bytes; (2) when no further admissible special
occurs, the run returns the final segment loop's pair unchanged, so (1)
characterizes the result for text ending mid-word; (3) consuming a reserved
token continues the loop with `last_piece_token_len` reset to 0; (4) for text
ending exactly on a reserved token (cursor at end of text right after it),
the run returns the tokens with `last_piece_token_len = 0`.  Concretely on
`engB`: ending on `<|endoftext|>` gives 0; ending on the mid-word match
`"ab"` (2 tokens) gives 2. -/
theorem spec_c3 :
    (∀ (E : CoreBPE) (ps0 : List (List Nat)) (p ret ts : List Nat) (lastLen l : Nat),
      E.processPieces (ps0 ++ [p]) ret lastLen = some (ts, l) →
      ∃ tks : List Nat,
        ((∃ t, E.encGet (E.bytesOf p) = some t ∧ tks = [t]) ∨
          (E.encGet (E.bytesOf p) = none ∧
            E.byte_pair_encode (E.bytesOf p) = some tks)) ∧
        l = tks.length ∧ (∃ pre, ts = pre ++ tks) ∧ (E.bytesOf p ≠ [] → 0 < l)) ∧
    (∀ (E : CoreBPE) (allowed : List (List Nat)) (text ret ts : List Nat)
      (fuel start lastLen l : Nat),
      E.innerFind allowed text (text.length + 1) start = some none →
      E.processPieces (E.pretok (sliceL text start text.length)) ret lastLen =
        some (ts, l) →
      E.encodeNativeGo allowed text (fuel + 1) start ret lastLen =
        some (some (ts, l))) ∧
    (∀ (E : CoreBPE) (allowed : List (List Nat)) (text ret ret1 : List Nat)
      (fuel start lastLen s e l1 : Nat),
      E.innerFind allowed text (text.length + 1) start = some (some (s, e)) →
      E.processPieces (E.pretok (sliceL text start s)) ret lastLen =
        some (ret1, l1) →
      E.encodeNativeGo allowed text (fuel + 1) start ret lastLen =
        E.encodeNativeGo allowed text fuel e
          (match E.specialEncGet (sliceL text s e) with
           | some t => ret1 ++ [t]
           | none => ret1) 0) ∧
    (∀ (E : CoreBPE), E.special_tokens_encoder.map Prod.fst ≠ [] →
      (∀ lit ∈ E.special_tokens_encoder.map Prod.fst, lit ≠ []) →
      E.pretok [] = [] →
      ∀ (allowed : List (List Nat)) (text ret : List Nat) (fuel : Nat),
      E.encodeNativeGo allowed text (fuel + 1) text.length ret 0 =
        some (some (ret, 0))) ∧
    engB.encode_native 16 ([97] ++ eotLit) [eotLit] = some (some ([1, 50256], 0)) ∧
    engB.encode_native 16 ([97] ++ eotLit ++ [97, 98]) [eotLit] =
      some (some ([1, 50256, 1, 2], 2)) ∧
    engB.pretok [97, 98] = [[97, 98]] ∧
    engB.encode_ordinary [97, 98] = some [1, 2] ∧
    ([1, 2] : List Nat).length = 2 := by
  refine ⟨processPieces_last, ?_, ?_, ?_, by decide, by decide, by decide, by decide,
    by decide⟩
  · intro E allowed text ret ts fuel start lastLen l h1 h2
    rw [CoreBPE.encodeNativeGo, h1]
    show (match E.processPieces (E.pretok (sliceL text start text.length))
        ret lastLen with
      | none => some none
      | some (ret1, last1) => some (some (ret1, last1))) = some (some (ts, l))
    rw [h2]
  · intro E allowed text ret ret1 fuel start lastLen s e l1 h1 h2
    rw [CoreBPE.encodeNativeGo, h1]
    show (match E.processPieces (E.pretok (sliceL text start s)) ret lastLen with
      | none => some none
      | some (r, _l) =>
        match E.specialEncGet (sliceL text s e) with
        | some t => E.encodeNativeGo allowed text fuel e (r ++ [t]) 0
        | none => E.encodeNativeGo allowed text fuel e r 0) = _
    rw [h2]
    cases hse : E.specialEncGet (sliceL text s e) <;> rfl
  · intro E hnil hne hpre allowed text ret fuel
    rw [CoreBPE.encodeNativeGo, innerFind_at_end E allowed text hnil hne text.length]
    show (match E.processPieces (E.pretok (sliceL text text.length text.length))
        ret 0 with
      | none => some none
      | some (ret1, last1) => some (some (ret1, last1))) = some (some (ret, 0))
    rw [show sliceL text text.length text.length = [] by simp [sliceL], hpre]
    rfl

/-- Witness for C3's universal conjuncts at the concrete engine `engB` and
text `"ab"`: the final-segment exit returns the segment loop's pair, whose
`last_piece_token_len` is the trailing match's token count 2. -/
theorem spec_c3_witness :
    engB.encodeNativeGo [] [97, 98] 5 0 [] 0 = some (some ([1, 2], 2)) ∧
    (∃ tks : List Nat,
      ((∃ t, engB.encGet (engB.bytesOf [97, 98]) = some t ∧ tks = [t]) ∨
        (engB.encGet (engB.bytesOf [97, 98]) = none ∧
          engB.byte_pair_encode (engB.bytesOf [97, 98]) = some tks)) ∧
      2 = tks.length ∧ (∃ pre, ([1, 2] : List Nat) = pre ++ tks) ∧
      (engB.bytesOf [97, 98] ≠ [] → 0 < 2)) :=
  ⟨spec_c3.2.1 engB [] [97, 98] [] [1, 2] 4 0 0 2 (by decide) (by decide),
   spec_c3.1 engB ([] : List (List Nat)) [97, 98] [] [1, 2] 0 2 (by decide)⟩
